import Mathlib

/-
Verification development for the MLX python function-transformation bindings
(python/src/transforms.cpp): the pytree codec, the value_and_grad driver,
the vmap axis resolver, the compilation-signature builder and its
structure cache, and the custom_function wrapper.

Arrays are modelled by their identity (a natural number id): the engine
never looks inside an array, it only moves references around and compares
identities.  Python objects that can appear in an argument tree are
modelled by the mutual inductive PyObj below: arrays, int constants,
float constants (represented by their 64-bit pattern, which is all the
engine ever reads of them), string constants, None, lists, tuples and
dicts (a dict is its key/value pairs in iteration order).
-/

namespace MLXTransforms

mutual

inductive PyObj : Type where
  | arr (id : Nat)
  | intc (v : Int)
  | floatc (bits : Nat)
  | strc (s : String)
  | nonec
  | list (xs : PyObjList)
  | tuple (xs : PyObjList)
  | dict (kvs : PyKVList)

inductive PyObjList : Type where
  | nil
  | cons (x : PyObj) (xs : PyObjList)

inductive PyKVList : Type where
  | nil
  | cons (k : String) (v : PyObj) (kvs : PyKVList)

end

deriving instance DecidableEq for PyObj
deriving instance DecidableEq for PyObjList
deriving instance DecidableEq for PyKVList

mutual

/-- Modelled from the spec: the codec (tree_flatten in python/src/trees.cpp,
which is not part of the sources here) collects the array leaves of a tree
in depth-first, left-to-right order, dropping non-array leaves. -/
def treeFlatten : PyObj → List Nat
  | .arr i => [i]
  | .intc _ => []
  | .floatc _ => []
  | .strc _ => []
  | .nonec => []
  | .list xs => treeFlattenL xs
  | .tuple xs => treeFlattenL xs
  | .dict kvs => treeFlattenKV kvs

def treeFlattenL : PyObjList → List Nat
  | .nil => []
  | .cons x xs => treeFlatten x ++ treeFlattenL xs

def treeFlattenKV : PyKVList → List Nat
  | .nil => []
  | .cons _ v kvs => treeFlatten v ++ treeFlattenKV kvs

end

mutual

/-- Modelled from the spec: strict flattening (tree_flatten with
strict = true, from python/src/trees.cpp which is not part of the sources
here) fails on encountering a non-array leaf instead of dropping it. -/
def treeFlattenStrict : PyObj → Except String (List Nat)
  | .arr i => .ok [i]
  | .intc _ => .error "[tree_flatten] The argument should contain only arrays"
  | .floatc _ => .error "[tree_flatten] The argument should contain only arrays"
  | .strc _ => .error "[tree_flatten] The argument should contain only arrays"
  | .nonec => .error "[tree_flatten] The argument should contain only arrays"
  | .list xs => treeFlattenStrictL xs
  | .tuple xs => treeFlattenStrictL xs
  | .dict kvs => treeFlattenStrictKV kvs

def treeFlattenStrictL : PyObjList → Except String (List Nat)
  | .nil => .ok []
  | .cons x xs => do
    let a ← treeFlattenStrict x
    let b ← treeFlattenStrictL xs
    .ok (a ++ b)

def treeFlattenStrictKV : PyKVList → Except String (List Nat)
  | .nil => .ok []
  | .cons _ v kvs => do
    let a ← treeFlattenStrict v
    let b ← treeFlattenStrictKV kvs
    .ok (a ++ b)

end

mutual

/-- Modelled from the spec: erasing every array leaf to a placeholder
(id 0) yields the structure descriptor of a tree — same container kinds,
sizes and keys, same constants, placeholders at array positions. -/
def eraseArr : PyObj → PyObj
  | .arr _ => .arr 0
  | .intc v => .intc v
  | .floatc b => .floatc b
  | .strc s => .strc s
  | .nonec => .nonec
  | .list xs => .list (eraseArrL xs)
  | .tuple xs => .tuple (eraseArrL xs)
  | .dict kvs => .dict (eraseArrKV kvs)

def eraseArrL : PyObjList → PyObjList
  | .nil => .nil
  | .cons x xs => .cons (eraseArr x) (eraseArrL xs)

def eraseArrKV : PyKVList → PyKVList
  | .nil => .nil
  | .cons k v kvs => .cons k (eraseArr v) (eraseArrKV kvs)

end

/-- Modelled from the spec: flatten_with_structure returns the ordered
array list together with the structure descriptor. -/
def treeFlattenWithStructure (t : PyObj) : List Nat × PyObj :=
  (treeFlatten t, eraseArr t)

mutual

/-- Modelled from the spec: the worker of tree_unflatten walks a template
tree and replaces each array leaf by the next array pulled from the list,
returning the rebuilt tree and the unconsumed suffix; it fails when the
list runs out before the array leaves of the template do. -/
def treeUnflattenGo : PyObj → List Nat → Option (PyObj × List Nat)
  | .arr _, ids =>
    match ids with
    | [] => none
    | i :: rest => some (.arr i, rest)
  | .intc v, ids => some (.intc v, ids)
  | .floatc b, ids => some (.floatc b, ids)
  | .strc s, ids => some (.strc s, ids)
  | .nonec, ids => some (.nonec, ids)
  | .list xs, ids =>
    match treeUnflattenGoL xs ids with
    | none => none
    | some (ys, rest) => some (.list ys, rest)
  | .tuple xs, ids =>
    match treeUnflattenGoL xs ids with
    | none => none
    | some (ys, rest) => some (.tuple ys, rest)
  | .dict kvs, ids =>
    match treeUnflattenGoKV kvs ids with
    | none => none
    | some (ys, rest) => some (.dict ys, rest)

def treeUnflattenGoL : PyObjList → List Nat → Option (PyObjList × List Nat)
  | .nil, ids => some (.nil, ids)
  | .cons x xs, ids =>
    match treeUnflattenGo x ids with
    | none => none
    | some (y, rest) =>
      match treeUnflattenGoL xs rest with
      | none => none
      | some (ys, rest2) => some (.cons y ys, rest2)

def treeUnflattenGoKV : PyKVList → List Nat → Option (PyKVList × List Nat)
  | .nil, ids => some (.nil, ids)
  | .cons k v kvs, ids =>
    match treeUnflattenGo v ids with
    | none => none
    | some (y, rest) =>
      match treeUnflattenGoKV kvs rest with
      | none => none
      | some (ys, rest2) => some (.cons k y ys, rest2)

end

/-- Modelled from the spec: tree_unflatten(template, arrays, offset)
rebuilds a tree from the template, consuming arrays starting at offset. -/
def treeUnflatten (template : PyObj) (ids : List Nat) (offset : Nat) : Option PyObj :=
  match treeUnflattenGo template (ids.drop offset) with
  | none => none
  | some (t, _) => some t

def PyObjList.ofList : List PyObj → PyObjList
  | [] => .nil
  | x :: xs => .cons x (PyObjList.ofList xs)

def PyKVList.ofList : List (String × PyObj) → PyKVList
  | [] => .nil
  | (k, v) :: kvs => .cons k v (PyKVList.ofList kvs)

/-- Option-valued sequencing of a fallible map over a list, mirroring a
loop that aborts on the first failure. -/
def mapMOpt (f : α → Option β) : List α → Option (List β)
  | [] => some []
  | x :: xs =>
    match f x with
    | none => none
    | some y =>
      match mapMOpt f xs with
      | none => none
      | some ys => some (y :: ys)

/-- validate_argnums_argnames from transforms.cpp: a missing argnums
defaults to index 0 when argnames is also empty, and to no positional
indices otherwise; an explicitly supplied argnums is passed through. -/
def validateArgnumsArgnames (argnums : Option (List Int)) (argnames : List String) :
    List Int × List String :=
  match argnums with
  | none => if argnames.isEmpty then ([0], argnames) else ([], argnames)
  | some v => (v, argnames)

/-- True when the list has two equal adjacent elements, mirroring the
pairwise duplicate scan of py_value_and_grad over the sorted argnums. -/
def hasAdjacentDup : List Int → Bool
  | [] => false
  | [_] => false
  | a :: b :: rest => a == b || hasAdjacentDup (b :: rest)

/-- The wrap-time sanitization of py_value_and_grad: reject an empty
selection; otherwise sort argnums and reject a negative first (smallest)
index or a duplicate adjacent pair in the sorted list.  On success it
returns the sorted argnums, which is what the call lambda captures. -/
def checkSortedArgnums : List Int → Except String (List Int)
  | [] => .ok []
  | a :: rest =>
    if a < 0 then
      .error "Cannot compute the gradient of negative argument index"
    else if hasAdjacentDup (a :: rest) then
      .error "Duplicate argument index is not allowed"
    else .ok (a :: rest)

def sanitizeArgnums (argnums : List Int) (argnames : List String) :
    Except String (List Int) :=
  if argnums.isEmpty && argnames.isEmpty then
    .error "Gradient wrt no argument requested"
  else checkSortedArgnums (List.insertionSort (· ≤ ·) argnums)

/-- The call-time sanitization of py_value_and_grad: the largest selected
positional index (the back of the sorted argnums) must be within the
supplied positional arguments, and every selected keyword name must be
among the supplied keyword arguments. -/
def callTimeCheck (argnums : List Int) (argnames : List String)
    (nargs : Nat) (kwargKeys : List String) : Except String Unit :=
  if 0 < argnums.length ∧ (nargs : Int) ≤ argnums.getLastD 0 then
    .error "Cannot compute the gradient of an argument index beyond the supplied positional arguments"
  else if argnames.all (fun k => kwargKeys.contains k) then .ok ()
  else .error "Cannot compute the gradient of a keyword argument that was not supplied"

/-- args[i] of the call: positional argument lookup (indices are
validated against the argument count before use). -/
def argAt (args : List PyObj) (i : Int) : PyObj :=
  args.getD i.toNat .nonec

/-- The selected keyword items, in kwargs iteration order. -/
def selKwargs (kwargs : List (String × PyObj)) (argnames : List String) :
    List (String × PyObj) :=
  kwargs.filter (fun kv => argnames.contains kv.1)

/-- The per-selected-argument flat tensor counts pushed by the collection
loops of py_value_and_grad: one entry per selected positional index in
sorted order, then one per selected keyword argument in kwargs order. -/
def gradEntries (args : List PyObj) (kwargs : List (String × PyObj))
    (argnums : List Int) (argnames : List String) : List Nat :=
  argnums.map (fun i => (treeFlatten (argAt args i)).length) ++
    (selKwargs kwargs argnames).map (fun kv => (treeFlatten kv.2).length)

/-- counts after std::partial_sum: counts[j] is the number of flat
tensors contributed by the first j selected arguments (counts[0] = 0). -/
def gradCounts (args : List PyObj) (kwargs : List (String × PyObj))
    (argnums : List Int) (argnames : List String) : List Nat :=
  List.scanl (· + ·) 0 (gradEntries args kwargs argnums argnames)

/-- The positional gradient packaging of py_value_and_grad: with exactly
one selected index the gradient tree of that argument is returned bare;
with several, a tuple of per-index gradient trees; with none, None. -/
def positionalGradsM (args : List PyObj) (argnums : List Int)
    (gradients : List Nat) (counts : List Nat) : Option PyObj :=
  if argnums.length = 1 then
    treeUnflatten (argAt args (argnums.getD 0 0)) gradients (counts.getD 0 0)
  else if 1 < argnums.length then
    match mapMOpt
        (fun i => treeUnflatten (argAt args (argnums.getD i 0)) gradients (counts.getD i 0))
        (List.range argnums.length) with
    | none => none
    | some gs => some (.tuple (PyObjList.ofList gs))
  else some .nonec

/-- The keyword gradient packaging loop of py_value_and_grad: the i-th
selected keyword argument (kwargs order) is unflattened against offset
counts[i + argnums.size()]. -/
def keywordGradsGo (gradients counts : List Nat) (numsLen : Nat) :
    List (String × PyObj) → Nat → Option (List (String × PyObj))
  | [], _ => some []
  | (k, v) :: rest, i =>
    match treeUnflatten v gradients (counts.getD (i + numsLen) 0) with
    | none => none
    | some g =>
      match keywordGradsGo gradients counts numsLen rest (i + 1) with
      | none => none
      | some kvs => some ((k, g) :: kvs)

/-- The gradient packaging of py_value_and_grad (py_grads): the
positional part alone when no keyword name is selected, otherwise the
pair of the positional part and the keyword gradient dict. -/
def packageGrads (args : List PyObj) (kwargs : List (String × PyObj))
    (argnums : List Int) (argnames : List String) (gradients : List Nat) :
    Option PyObj :=
  match positionalGradsM args argnums gradients
      (gradCounts args kwargs argnums argnames) with
  | none => none
  | some pos =>
    if argnames.isEmpty then some pos
    else
      match keywordGradsGo gradients (gradCounts args kwargs argnums argnames)
          argnums.length (selKwargs kwargs argnames) 0 with
      | none => none
      | some kvs => some (.tuple (.cons pos (.cons (.dict (PyKVList.ofList kvs)) .nil)))

/-- The return-value validation of py_value_and_grad: an array is always
accepted; anything else fails in scalar-only mode; otherwise only a
non-empty tuple whose first element is an array is accepted. -/
def validateReturn (scalarFuncOnly : Bool) (v : PyObj) : Except String Unit :=
  match v with
  | .arr _ => .ok ()
  | .tuple xs =>
    if scalarFuncOnly then
      .error "The return value of the function whose gradient we want to compute should be a scalar array"
    else
      match xs with
      | .nil => .error "The return value should be either a scalar array or a non-empty tuple"
      | .cons (.arr _) _ => .ok ()
      | .cons _ _ =>
        .error "The return value should be a tuple with the first value being a scalar array"
  | _ =>
    if scalarFuncOnly then
      .error "The return value of the function whose gradient we want to compute should be a scalar array"
    else
      .error "The return value should be either a scalar array or a tuple with the first value being a scalar array"

mutual

/-- Modelled from the spec: tree_visit_update (python/src/trees.cpp, not
part of the sources here) walks a tree depth first and replaces each
array leaf in place by the result of the visitor, leaving container
shape and non-array leaves untouched.  The visitor is stateful (the
source closure mutates a captured index), so it is threaded explicitly:
it maps an array id and a state to a replacement id and a new state. -/
def treeVisitUpdate (f : Nat → Nat → Nat × Nat) : PyObj → Nat → PyObj × Nat
  | .arr i, s =>
    match f i s with
    | (j, s2) => (.arr j, s2)
  | .intc v, s => (.intc v, s)
  | .floatc b, s => (.floatc b, s)
  | .strc st, s => (.strc st, s)
  | .nonec, s => (.nonec, s)
  | .list xs, s =>
    match treeVisitUpdateL f xs s with
    | (ys, s2) => (.list ys, s2)
  | .tuple xs, s =>
    match treeVisitUpdateL f xs s with
    | (ys, s2) => (.tuple ys, s2)
  | .dict kvs, s =>
    match treeVisitUpdateKV f kvs s with
    | (ys, s2) => (.dict ys, s2)

def treeVisitUpdateL (f : Nat → Nat → Nat × Nat) : PyObjList → Nat → PyObjList × Nat
  | .nil, s => (.nil, s)
  | .cons x xs, s =>
    match treeVisitUpdate f x s with
    | (y, s2) =>
      match treeVisitUpdateL f xs s2 with
      | (ys, s3) => (.cons y ys, s3)

def treeVisitUpdateKV (f : Nat → Nat → Nat × Nat) : PyKVList → Nat → PyKVList × Nat
  | .nil, s => (.nil, s)
  | .cons k v kvs, s =>
    match treeVisitUpdate f v s with
    | (y, s2) =>
      match treeVisitUpdateKV f kvs s2 with
      | (ys, s3) => (.cons k y ys, s3)

end

/-- The tracer-restoring visitor of py_value_and_grad: a is the flat
list of tracers the tree was filled with, orig the flat list of original
arrays.  A leaf equal to the tracer at the cursor is replaced by the
original at the cursor and the cursor advances; any other leaf is kept
and the cursor does not move. -/
def spliceVisitor (a orig : List Nat) (id idx : Nat) : Nat × Nat :=
  match a.get? idx, orig.get? idx with
  | some aid, some oid => if id = aid then (oid, idx + 1) else (id, idx)
  | _, _ => (id, idx)

/-- The splice step of py_value_and_grad after the traced call: visit
every array leaf of the (args, kwargs) tree with spliceVisitor, starting
the cursor at 0. -/
def spliceBack (t : PyObj) (a orig : List Nat) : PyObj :=
  (treeVisitUpdate (spliceVisitor a orig) t 0).1

/-- Reserved probable-prime sentinel for an array in the compilation
signature (PyCompiledFun::call_impl). -/
def arrayIdentifier : Nat := 18446744073709551557

/-- Reserved probable-prime sentinel for a list or tuple in the
compilation signature. -/
def listIdentifier : Nat := 18446744073709551533

/-- Reserved probable-prime sentinel for a dict in the compilation
signature. -/
def dictIdentifier : Nat := 18446744073709551521

/-- A 64-bit union view: an int64 stored into the uint64 constants
vector, i.e. the value modulo 2^64. -/
def toUInt64Token (v : Int) : Nat :=
  (v % (18446744073709551616 : Int)).toNat

/-- Language-level string hash as used for dict keys and string
constants; any deterministic 64-bit hash; modelled as a simple fold. -/
def strHash (s : String) : Nat :=
  s.foldl (fun h c => (h * 31 + c.toNat) % 18446744073709551616) 5381

mutual

/-- The recurse lambda of PyCompiledFun::call_impl: walk the tree
depth first, collecting the array leaves into the flat input list and
pushing signature tokens: container sentinels for lists/tuples/dicts,
a per-key hash for dict items, the array sentinel for array leaves, and
the encoded value for int, float and string constants.  Any other leaf
type is rejected. -/
def compileSig : PyObj → Except String (List Nat × List Nat)
  | .list xs => do
    let (i, c) ← compileSigL xs
    .ok (i, listIdentifier :: c)
  | .tuple xs => do
    let (i, c) ← compileSigL xs
    .ok (i, listIdentifier :: c)
  | .dict kvs => do
    let (i, c) ← compileSigKV kvs
    .ok (i, dictIdentifier :: c)
  | .arr id => .ok ([id], [arrayIdentifier])
  | .strc s => .ok ([], [strHash s])
  | .intc v => .ok ([], [toUInt64Token v])
  | .floatc b => .ok ([], [b % 18446744073709551616])
  | .nonec =>
    .error "Function arguments must be trees of arrays or constants (floats, ints, or strings)"

def compileSigL : PyObjList → Except String (List Nat × List Nat)
  | .nil => .ok ([], [])
  | .cons x xs => do
    let (i1, c1) ← compileSig x
    let (i2, c2) ← compileSigL xs
    .ok (i1 ++ i2, c1 ++ c2)

def compileSigKV : PyKVList → Except String (List Nat × List Nat)
  | .nil => .ok ([], [])
  | .cons k v kvs => do
    let (i1, c1) ← compileSig v
    let (i2, c2) ← compileSigKV kvs
    .ok (i1 ++ i2, strHash k :: (c1 ++ c2))

end

/-- PyCompiledFun::call_impl builds the signature in two passes: the
positional args tuple first, then the kwargs dict; tokens and flat
inputs are concatenated in that order. -/
def callSignature (args : List PyObj) (kwargs : List (String × PyObj)) :
    Except String (List Nat × List Nat) := do
  let (i1, c1) ← compileSig (.tuple (PyObjList.ofList args))
  let (i2, c2) ← compileSig (.dict (PyKVList.ofList kwargs))
  .ok (i1 ++ i2, c1 ++ c2)

/-- The signature token list alone (the constants vector handed to the
primitive compile as cache key). -/
def callSignatureTokens (args : List PyObj) (kwargs : List (String × PyObj)) :
    Except String (List Nat) :=
  (callSignature args kwargs).map Prod.snd

/-- The process-wide output-structure cache (tree_cache in
transforms.cpp), an id-keyed map modelled as an association list. -/
def TreeCache : Type := List (Nat × PyObj)

/-- std::unordered_map::insert as used by the compile callback on
tree_cache(): a no-op when the key is already present (it does NOT
overwrite the mapped value). -/
def treeCacheInsert (m : TreeCache) (k : Nat) (v : PyObj) : TreeCache :=
  match List.lookup k m with
  | some _ => m
  | none => (k, v) :: m

/-- std::unordered_map::at as used by the outer driver to fetch the
recorded output structure. -/
def treeCacheAt (m : TreeCache) (k : Nat) : Option PyObj :=
  List.lookup k m

/-- One actual (non-cached) invocation of the compile callback, as far
as the structure cache is concerned: the callback flattens the return
value with structure and inserts the structure under the callable id. -/
def recordOutputStructure (m : TreeCache) (funId : Nat) (treeOutputs : PyObj) : TreeCache :=
  treeCacheInsert m funId (treeFlattenWithStructure treeOutputs).2

/-- The reconstruction step of the outer driver: unflatten the flat
outputs of the compiled call against the structure stored in the cache
for this callable id. -/
def reconstructOutputs (m : TreeCache) (funId : Nat) (outputs : List Nat) : Option PyObj :=
  match treeCacheAt m funId with
  | none => none
  | some st => treeUnflatten st outputs 0

/-- The integer-axis resolution of the axes_to_flat_tree lambda in
py_vmap, for one array leaf of rank ndim: a negative axis is shifted by
ndim (plus one more when resolving output axes); the axis must then lie
in [0, ndim + extra). -/
def resolveAxisInt (ndim : Nat) (outputAxes : Bool) (axis : Int) : Except String Int :=
  let extra : Int := if outputAxes then 1 else 0
  let a := if axis < 0 then axis + ndim + extra else axis
  if a < 0 ∨ (ndim : Int) + extra ≤ a then
    .error "[vmap] Invalid vectorization axis"
  else .ok a

/-- Axis resolution for one array leaf: None resolves to the
not-vectorized sentinel -1, an integer axis goes through the range
normalization and check. -/
def resolveAxis (ndim : Nat) (outputAxes : Bool) : Option Int → Except String Int
  | none => .ok (-1)
  | some a => resolveAxisInt ndim outputAxes a

/-- The custom_function wrapper state: the wrapped callable (modelled as
a pure function of the positional and keyword arguments) and the three
optional override callables, of which only presence or absence steers
the call path under scrutiny here. -/
structure PyCustomFunction where
  fn : List PyObj → List (String × PyObj) → PyObj
  vjpFun : Option (PyObj → PyObj)
  jvpFun : Option (PyObj → PyObj)
  vmapFun : Option (PyObj → PyObj)

/-- The observable outcome of PyCustomFunction::call_impl: either the
direct, untraced invocation of the wrapped callable, or the traced path
that flattens the full (args, kwargs) tree with structure and drives the
primitive custom_function on the flat arrays. -/
inductive CustomCallResult : Type where
  | direct (v : PyObj)
  | traced (inputArrays : List Nat) (inputStructure : PyObj)
deriving DecidableEq

/-- PyCustomFunction::call_impl: when no vjp, jvp or vmap override is
registered the wrapper just calls the wrapped callable with the same
args and kwargs; otherwise it flattens (args, kwargs) once and enters
the traced path. -/
def customCallImpl (cf : PyCustomFunction) (args : List PyObj)
    (kwargs : List (String × PyObj)) : CustomCallResult :=
  if cf.vjpFun.isNone ∧ cf.jvpFun.isNone ∧ cf.vmapFun.isNone then
    .direct (cf.fn args kwargs)
  else
    let fullArgs : PyObj :=
      .tuple (.cons (.tuple (PyObjList.ofList args))
        (.cons (.dict (PyKVList.ofList kwargs)) .nil))
    .traced (treeFlattenWithStructure fullArgs).1 (treeFlattenWithStructure fullArgs).2

/-- The token part of a two-pass signature, combined with the error
short-circuiting of the two recurse passes. -/
def combineTokens : Except String (List Nat) → Except String (List Nat) →
    Except String (List Nat)
  | .error e, _ => .error e
  | .ok _, .error e => .error e
  | .ok c1, .ok c2 => .ok (c1 ++ c2)

mutual

theorem unflattenGo_flatten : ∀ (t : PyObj) (rest : List Nat),
    treeUnflattenGo (eraseArr t) (treeFlatten t ++ rest) = some (t, rest)
  | .arr i, rest => by simp [eraseArr, treeFlatten, treeUnflattenGo]
  | .intc v, rest => by simp [eraseArr, treeFlatten, treeUnflattenGo]
  | .floatc b, rest => by simp [eraseArr, treeFlatten, treeUnflattenGo]
  | .strc s, rest => by simp [eraseArr, treeFlatten, treeUnflattenGo]
  | .nonec, rest => by simp [eraseArr, treeFlatten, treeUnflattenGo]
  | .list xs, rest => by
    simp [eraseArr, treeFlatten, treeUnflattenGo, unflattenGoL_flatten xs rest]
  | .tuple xs, rest => by
    simp [eraseArr, treeFlatten, treeUnflattenGo, unflattenGoL_flatten xs rest]
  | .dict kvs, rest => by
    simp [eraseArr, treeFlatten, treeUnflattenGo, unflattenGoKV_flatten kvs rest]

theorem unflattenGoL_flatten : ∀ (xs : PyObjList) (rest : List Nat),
    treeUnflattenGoL (eraseArrL xs) (treeFlattenL xs ++ rest) = some (xs, rest)
  | .nil, rest => by simp [eraseArrL, treeFlattenL, treeUnflattenGoL]
  | .cons x xs, rest => by
    have h1 := unflattenGo_flatten x (treeFlattenL xs ++ rest)
    have h2 := unflattenGoL_flatten xs rest
    simp [eraseArrL, treeFlattenL, treeUnflattenGoL, List.append_assoc, h1, h2]

theorem unflattenGoKV_flatten : ∀ (kvs : PyKVList) (rest : List Nat),
    treeUnflattenGoKV (eraseArrKV kvs) (treeFlattenKV kvs ++ rest) = some (kvs, rest)
  | .nil, rest => by simp [eraseArrKV, treeFlattenKV, treeUnflattenGoKV]
  | .cons k v kvs, rest => by
    have h1 := unflattenGo_flatten v (treeFlattenKV kvs ++ rest)
    have h2 := unflattenGoKV_flatten kvs rest
    simp [eraseArrKV, treeFlattenKV, treeUnflattenGoKV, List.append_assoc, h1, h2]

end

mutual

theorem unflattenGo_shape : ∀ (tmpl : PyObj) (ids : List Nat) (t : PyObj) (rest : List Nat),
    treeUnflattenGo tmpl ids = some (t, rest) →
      eraseArr t = eraseArr tmpl ∧ ids = treeFlatten t ++ rest
  | .arr i, ids, t, rest => by
    cases ids with
    | nil => intro h; simp [treeUnflattenGo] at h
    | cons j ids2 =>
      intro h
      simp [treeUnflattenGo] at h
      obtain ⟨h1, h2⟩ := h
      subst h1; subst h2
      simp [eraseArr, treeFlatten]
  | .intc v, ids, t, rest => by
    intro h; simp [treeUnflattenGo] at h
    obtain ⟨h1, h2⟩ := h; subst h1; subst h2; simp [eraseArr, treeFlatten]
  | .floatc b, ids, t, rest => by
    intro h; simp [treeUnflattenGo] at h
    obtain ⟨h1, h2⟩ := h; subst h1; subst h2; simp [eraseArr, treeFlatten]
  | .strc s, ids, t, rest => by
    intro h; simp [treeUnflattenGo] at h
    obtain ⟨h1, h2⟩ := h; subst h1; subst h2; simp [eraseArr, treeFlatten]
  | .nonec, ids, t, rest => by
    intro h; simp [treeUnflattenGo] at h
    obtain ⟨h1, h2⟩ := h; subst h1; subst h2; simp [eraseArr, treeFlatten]
  | .list xs, ids, t, rest => by
    intro h
    simp only [treeUnflattenGo] at h
    split at h
    · exact absurd h (by simp)
    case _ ys rest2 heq =>
      simp at h
      obtain ⟨h1, h2⟩ := h
      subst h1; subst h2
      have ih := unflattenGoL_shape _ _ _ _ heq
      simp [eraseArr, treeFlatten, ih.1, ih.2]
  | .tuple xs, ids, t, rest => by
    intro h
    simp only [treeUnflattenGo] at h
    split at h
    · exact absurd h (by simp)
    case _ ys rest2 heq =>
      simp at h
      obtain ⟨h1, h2⟩ := h
      subst h1; subst h2
      have ih := unflattenGoL_shape _ _ _ _ heq
      simp [eraseArr, treeFlatten, ih.1, ih.2]
  | .dict kvs, ids, t, rest => by
    intro h
    simp only [treeUnflattenGo] at h
    split at h
    · exact absurd h (by simp)
    case _ ys rest2 heq =>
      simp at h
      obtain ⟨h1, h2⟩ := h
      subst h1; subst h2
      have ih := unflattenGoKV_shape _ _ _ _ heq
      simp [eraseArr, treeFlatten, ih.1, ih.2]

theorem unflattenGoL_shape : ∀ (tmpl : PyObjList) (ids : List Nat) (ys : PyObjList) (rest : List Nat),
    treeUnflattenGoL tmpl ids = some (ys, rest) →
      eraseArrL ys = eraseArrL tmpl ∧ ids = treeFlattenL ys ++ rest
  | .nil, ids, ys, rest => by
    intro h; simp [treeUnflattenGoL] at h
    obtain ⟨h1, h2⟩ := h; subst h1; subst h2; simp [eraseArrL, treeFlattenL]
  | .cons x xs, ids, ys, rest => by
    intro h
    simp only [treeUnflattenGoL] at h
    split at h
    · exact absurd h (by simp)
    case _ y rest1 heq1 =>
      split at h
      · exact absurd h (by simp)
      case _ ys2 rest2 heq2 =>
        simp at h
        obtain ⟨h1, h2⟩ := h
        subst h1; subst h2
        have ih1 := unflattenGo_shape _ _ _ _ heq1
        have ih2 := unflattenGoL_shape _ _ _ _ heq2
        refine ⟨by simp [eraseArrL, ih1.1, ih2.1], ?_⟩
        rw [ih1.2, ih2.2]
        simp [treeFlattenL, List.append_assoc]

theorem unflattenGoKV_shape : ∀ (tmpl : PyKVList) (ids : List Nat) (ys : PyKVList) (rest : List Nat),
    treeUnflattenGoKV tmpl ids = some (ys, rest) →
      eraseArrKV ys = eraseArrKV tmpl ∧ ids = treeFlattenKV ys ++ rest
  | .nil, ids, ys, rest => by
    intro h; simp [treeUnflattenGoKV] at h
    obtain ⟨h1, h2⟩ := h; subst h1; subst h2; simp [eraseArrKV, treeFlattenKV]
  | .cons k v kvs, ids, ys, rest => by
    intro h
    simp only [treeUnflattenGoKV] at h
    split at h
    · exact absurd h (by simp)
    case _ y rest1 heq1 =>
      split at h
      · exact absurd h (by simp)
      case _ ys2 rest2 heq2 =>
        simp at h
        obtain ⟨h1, h2⟩ := h
        subst h1; subst h2
        have ih1 := unflattenGo_shape _ _ _ _ heq1
        have ih2 := unflattenGoKV_shape _ _ _ _ heq2
        refine ⟨by simp [eraseArrKV, ih1.1, ih2.1], ?_⟩
        rw [ih1.2, ih2.2]
        simp [treeFlattenKV, List.append_assoc]

end

theorem treeUnflatten_shape (tmpl : PyObj) (ids : List Nat) (off : Nat) (g : PyObj)
    (h : treeUnflatten tmpl ids off = some g) : eraseArr g = eraseArr tmpl := by
  unfold treeUnflatten at h
  cases hgo : treeUnflattenGo tmpl (ids.drop off) with
  | none => rw [hgo] at h; simp at h
  | some p =>
    obtain ⟨t, rest⟩ := p
    rw [hgo] at h
    simp at h
    subst h
    exact (unflattenGo_shape _ _ _ _ hgo).1

/-- C1: for every tree built from nested sequences, mappings, tensor
leaves and constant leaves, unflattening the (ordered tensor list,
structure descriptor) pair produced by flatten_with_structure
reconstructs the tree exactly — same container kinds, sizes and keys,
same constants, and identity-equal tensors at every tensor leaf. -/
theorem flatten_structure_roundtrip (t : PyObj) :
    treeUnflatten (treeFlattenWithStructure t).2 (treeFlattenWithStructure t).1 0 = some t := by
  have h := unflattenGo_flatten t []
  rw [List.append_nil] at h
  simp [treeUnflatten, treeFlattenWithStructure, h]

/-- C2 (code behavior at the failing input): the compile callback records
the output structure with std::unordered_map::insert, which keeps the old
mapped value when the key is already present.  After a first trace whose
return value is a single array and a re-trace (new signature) whose
return value is a 2-tuple of arrays, the cache still holds the structure
of the FIRST trace, and the outer driver reconstructs the 2 flat outputs
of the second call through that stale single-array structure, yielding a
bare array instead of the 2-tuple. -/
theorem compile_structure_cache_stale :
    treeCacheAt
        (recordOutputStructure (recordOutputStructure [] 7 (.arr 5)) 7
          (.tuple (.cons (.arr 5) (.cons (.arr 6) .nil)))) 7 =
      some (treeFlattenWithStructure (.arr 5)).2 ∧
    (treeFlattenWithStructure (.arr 5)).2 ≠
      (treeFlattenWithStructure (.tuple (.cons (.arr 5) (.cons (.arr 6) .nil)))).2 ∧
    reconstructOutputs
        (recordOutputStructure (recordOutputStructure [] 7 (.arr 5)) 7
          (.tuple (.cons (.arr 5) (.cons (.arr 6) .nil)))) 7 [21, 22] =
      some (.arr 21) ∧
    treeUnflatten (treeFlattenWithStructure
        (.tuple (.cons (.arr 5) (.cons (.arr 6) .nil)))).2 [21, 22] 0 =
      some (.tuple (.cons (.arr 21) (.cons (.arr 22) .nil))) := by
  refine ⟨rfl, by decide, rfl, rfl⟩

/-- C4 (code behavior at the failing input): the tracer-restoring visitor
advances its cursor only on a match.  With tracers [10, 11] and original
arrays [1, 2]: when both leaves still hold their tracers, both are
restored to the originals; but when the call overwrote the first leaf
(99), the cursor stays at 0 and the second leaf — which still holds its
tracer 11 — is NOT restored to the original 2, contradicting the
per-leaf restoration the claim states. -/
theorem splice_misalignment :
    spliceBack (.list (.cons (.tuple (.cons (.arr 10) (.cons (.arr 11) .nil)))
        (.cons (.dict .nil) .nil))) [10, 11] [1, 2] =
      .list (.cons (.tuple (.cons (.arr 1) (.cons (.arr 2) .nil)))
        (.cons (.dict .nil) .nil)) ∧
    spliceBack (.list (.cons (.tuple (.cons (.arr 99) (.cons (.arr 11) .nil)))
        (.cons (.dict .nil) .nil))) [10, 11] [1, 2] =
      .list (.cons (.tuple (.cons (.arr 99) (.cons (.arr 11) .nil)))
        (.cons (.dict .nil) .nil)) := by
  refine ⟨rfl, rfl⟩

/-- C8: vmap axis resolution for one tensor leaf of rank r: None resolves
to the sentinel -1; an integer axis a is normalized by adding r (plus one
more when resolving output axes) when negative, and the call fails
exactly when the normalized axis lies outside [0, r) for inputs or
[0, r + 1) for outputs.  In particular input axis -1 on a rank-2 tensor
resolves to 1 and input axis 2 on a rank-2 tensor fails. -/
theorem vmap_axis_resolution (r : Nat) (b : Bool) (a : Int) :
    (resolveAxis r b none = .ok (-1)) ∧
    (resolveAxis r b (some a) =
      (if 0 ≤ (if a < 0 then a + r + (if b then 1 else 0) else a) ∧
          (if a < 0 then a + r + (if b then 1 else 0) else a) < r + (if b then 1 else 0)
        then .ok (if a < 0 then a + r + (if b then 1 else 0) else a)
        else .error "[vmap] Invalid vectorization axis")) ∧
    (resolveAxis 2 false (some (-1)) = .ok 1) ∧
    (resolveAxis 2 false (some 2) = .error "[vmap] Invalid vectorization axis") := by
  refine ⟨rfl, ?_, rfl, rfl⟩
  simp only [resolveAxis, resolveAxisInt]
  split_ifs with h1 h2 <;> first
    | rfl
    | (exfalso; omega)

/-- C9: a custom_function wrapper on which no vjp, jvp or vmap override
has been registered performs the direct, untraced call of the wrapped
callable with the same positional and keyword arguments — no flattening,
tracing or structure recording happens. -/
theorem custom_function_no_overrides (cf : PyCustomFunction) (args : List PyObj)
    (kwargs : List (String × PyObj)) (h1 : cf.vjpFun = none)
    (h2 : cf.jvpFun = none) (h3 : cf.vmapFun = none) :
    customCallImpl cf args kwargs = .direct (cf.fn args kwargs) := by
  simp [customCallImpl, h1, h2, h3]

/-- Witness: C9 applied to a concrete override-free wrapper. -/
theorem custom_function_no_overrides_witness :
    customCallImpl ⟨fun _ _ => .arr 42, none, none, none⟩ [] [] = .direct (.arr 42) :=
  custom_function_no_overrides ⟨fun _ _ => .arr 42, none, none, none⟩ [] [] rfl rfl rfl

mutual

theorem compileSig_erase : ∀ (t : PyObj),
    compileSig (eraseArr t) =
      (compileSig t).map (fun p => (p.1.map (fun _ => 0), p.2))
  | .arr i => by simp [eraseArr, compileSig, Except.map]
  | .intc v => by simp [eraseArr, compileSig, Except.map]
  | .floatc b => by simp [eraseArr, compileSig, Except.map]
  | .strc s => by simp [eraseArr, compileSig, Except.map]
  | .nonec => by simp [eraseArr, compileSig, Except.map]
  | .list xs => by
    have ih := compileSigL_erase xs
    cases hx : compileSigL xs with
    | error e =>
      rw [hx] at ih
      simp [eraseArr, compileSig, ih, hx, Except.map, Bind.bind, Except.bind]
    | ok p =>
      obtain ⟨i, c⟩ := p
      rw [hx] at ih
      simp [eraseArr, compileSig, ih, hx, Except.map, Bind.bind, Except.bind]
  | .tuple xs => by
    have ih := compileSigL_erase xs
    cases hx : compileSigL xs with
    | error e =>
      rw [hx] at ih
      simp [eraseArr, compileSig, ih, hx, Except.map, Bind.bind, Except.bind]
    | ok p =>
      obtain ⟨i, c⟩ := p
      rw [hx] at ih
      simp [eraseArr, compileSig, ih, hx, Except.map, Bind.bind, Except.bind]
  | .dict kvs => by
    have ih := compileSigKV_erase kvs
    cases hx : compileSigKV kvs with
    | error e =>
      rw [hx] at ih
      simp [eraseArr, compileSig, ih, hx, Except.map, Bind.bind, Except.bind]
    | ok p =>
      obtain ⟨i, c⟩ := p
      rw [hx] at ih
      simp [eraseArr, compileSig, ih, hx, Except.map, Bind.bind, Except.bind]

theorem compileSigL_erase : ∀ (xs : PyObjList),
    compileSigL (eraseArrL xs) =
      (compileSigL xs).map (fun p => (p.1.map (fun _ => 0), p.2))
  | .nil => by simp [eraseArrL, compileSigL, Except.map]
  | .cons x xs => by
    have ih1 := compileSig_erase x
    have ih2 := compileSigL_erase xs
    cases hx : compileSig x with
    | error e =>
      rw [hx] at ih1
      simp [eraseArrL, compileSigL, ih1, hx, Except.map, Bind.bind, Except.bind]
    | ok p =>
      obtain ⟨i1, c1⟩ := p
      rw [hx] at ih1
      cases hxs : compileSigL xs with
      | error e =>
        rw [hxs] at ih2
        simp [eraseArrL, compileSigL, ih1, ih2, hx, hxs, Except.map, Bind.bind, Except.bind]
      | ok q =>
        obtain ⟨i2, c2⟩ := q
        rw [hxs] at ih2
        simp [eraseArrL, compileSigL, ih1, ih2, hx, hxs, Except.map, Bind.bind, Except.bind]

theorem compileSigKV_erase : ∀ (kvs : PyKVList),
    compileSigKV (eraseArrKV kvs) =
      (compileSigKV kvs).map (fun p => (p.1.map (fun _ => 0), p.2))
  | .nil => by simp [eraseArrKV, compileSigKV, Except.map]
  | .cons k v kvs => by
    have ih1 := compileSig_erase v
    have ih2 := compileSigKV_erase kvs
    cases hx : compileSig v with
    | error e =>
      rw [hx] at ih1
      simp [eraseArrKV, compileSigKV, ih1, hx, Except.map, Bind.bind, Except.bind]
    | ok p =>
      obtain ⟨i1, c1⟩ := p
      rw [hx] at ih1
      cases hxs : compileSigKV kvs with
      | error e =>
        rw [hxs] at ih2
        simp [eraseArrKV, compileSigKV, ih1, ih2, hx, hxs, Except.map, Bind.bind, Except.bind]
      | ok q =>
        obtain ⟨i2, c2⟩ := q
        rw [hxs] at ih2
        simp [eraseArrKV, compileSigKV, ih1, ih2, hx, hxs, Except.map, Bind.bind, Except.bind]

end

theorem sigTokens_erase (t : PyObj) :
    (compileSig t).map Prod.snd = (compileSig (eraseArr t)).map Prod.snd := by
  rw [compileSig_erase t]
  cases compileSig t <;> rfl

theorem callSignatureTokens_split (args : List PyObj) (kwargs : List (String × PyObj)) :
    callSignatureTokens args kwargs =
      combineTokens ((compileSig (.tuple (PyObjList.ofList args))).map Prod.snd)
        ((compileSig (.dict (PyKVList.ofList kwargs))).map Prod.snd) := by
  unfold callSignatureTokens callSignature
  cases h1 : compileSig (.tuple (PyObjList.ofList args)) with
  | error e => simp [h1, combineTokens, Except.map, Bind.bind, Except.bind]
  | ok p =>
    obtain ⟨i1, c1⟩ := p
    cases h2 : compileSig (.dict (PyKVList.ofList kwargs)) with
    | error e => simp [h1, h2, combineTokens, Except.map, Bind.bind, Except.bind]
    | ok q =>
      obtain ⟨i2, c2⟩ := q
      simp [h1, h2, combineTokens, Except.map, Bind.bind, Except.bind]

/-- C3 (counterexample): the reserved-sentinel token encoding is not
injective on bundle shapes.  The single-argument bundle ((1, (2,)),) and
the two-argument bundle ((1,), (2,)) — written with lists — have
different container shapes yet produce identical signature token lists,
so a signature match does not imply shapeless-compile compatibility and
changing the container shape does not always change the signature.
Likewise the int constant 5 and the float whose bit pattern is 5 are
different constant values with identical token lists. -/
theorem compile_signature_collision :
    (callSignatureTokens
        [.list (.cons (.intc 1) (.cons (.list (.cons (.intc 2) .nil)) .nil))] [] =
      callSignatureTokens [.list (.cons (.intc 1) .nil), .list (.cons (.intc 2) .nil)] []) ∧
    (eraseArr (.tuple (PyObjList.ofList
        [.list (.cons (.intc 1) (.cons (.list (.cons (.intc 2) .nil)) .nil))])) ≠
      eraseArr (.tuple (PyObjList.ofList
        [.list (.cons (.intc 1) .nil), .list (.cons (.intc 2) .nil)]))) ∧
    (callSignatureTokens [.intc 5] [] = callSignatureTokens [.floatc 5] []) ∧
    (PyObj.intc 5 ≠ PyObj.floatc 5) := by
  refine ⟨rfl, by decide, rfl, by decide⟩

/-- C3 (amended): shapeless-compile-compatible call bundles — same
container kinds, sizes and mapping keys, same non-tensor constant
values, tensors at the same positions, i.e. equal after erasing tensor
leaves to placeholders — always produce identical signature token lists;
in particular changing only the values of tensor arguments never changes
the signature.  The converse does not hold: distinct shapes or constants
can collide onto the same token list. -/
theorem compile_signature_of_compatible
    (args1 args2 : List PyObj) (kwargs1 kwargs2 : List (String × PyObj))
    (hargs : eraseArr (.tuple (PyObjList.ofList args1)) =
      eraseArr (.tuple (PyObjList.ofList args2)))
    (hkw : eraseArr (.dict (PyKVList.ofList kwargs1)) =
      eraseArr (.dict (PyKVList.ofList kwargs2))) :
    callSignatureTokens args1 kwargs1 = callSignatureTokens args2 kwargs2 := by
  rw [callSignatureTokens_split, callSignatureTokens_split,
    sigTokens_erase (.tuple (PyObjList.ofList args1)),
    sigTokens_erase (.dict (PyKVList.ofList kwargs1)),
    sigTokens_erase (.tuple (PyObjList.ofList args2)),
    sigTokens_erase (.dict (PyKVList.ofList kwargs2)), hargs, hkw]

/-- Witness: two calls differing only in the tensor argument value have
the same compilation signature. -/
theorem compile_signature_of_compatible_witness :
    callSignatureTokens [.arr 5] [] = callSignatureTokens [.arr 9] [] :=
  compile_signature_of_compatible [.arr 5] [.arr 9] [] [] rfl rfl

/-- C7 (counterexample): in non-scalar mode, a python list whose first
element is an array — a non-empty ordered sequence with a tensor first
element in the vocabulary of the spec — is nevertheless rejected: the
return-value check accepts only tuples. -/
theorem validate_return_list_rejected :
    validateReturn false (.list (.cons (.arr 1) .nil)) =
      .error "The return value should be either a scalar array or a tuple with the first value being a scalar array" := rfl

/-- C7 (amended): in scalar-only mode (grad) the return value must be a
single tensor; in non-scalar mode (value_and_grad) it must be a single
tensor or a non-empty TUPLE — specifically a tuple, any other sequence
kind is rejected — whose first element is a tensor.  Everything else
(empty tuple, non-tuple non-tensor such as a list, tuple with a
non-tensor first element) fails the return contract. -/
theorem validate_return_characterization (scalarOnly : Bool) (v : PyObj) :
    validateReturn scalarOnly v = .ok () ↔
      ((∃ i, v = .arr i) ∨
        (scalarOnly = false ∧ ∃ x xs, v = .tuple (.cons x xs) ∧ ∃ i, x = .arr i)) := by
  cases v with
  | tuple xs =>
    cases scalarOnly with
    | true => simp [validateReturn]
    | false =>
      cases xs with
      | nil => simp [validateReturn]
      | cons x xs2 => cases x <;> simp [validateReturn]
  | arr i => cases scalarOnly <;> simp [validateReturn]
  | intc v => cases scalarOnly <;> simp [validateReturn]
  | floatc b => cases scalarOnly <;> simp [validateReturn]
  | strc s => cases scalarOnly <;> simp [validateReturn]
  | nonec => cases scalarOnly <;> simp [validateReturn]
  | list xs => cases scalarOnly <;> simp [validateReturn]
  | dict kvs => cases scalarOnly <;> simp [validateReturn]

/-- Witness: the amended return contract applied to a bare array in
scalar-only mode. -/
theorem validate_return_characterization_witness :
    validateReturn true (.arr 3) = .ok () :=
  (validate_return_characterization true (.arr 3)).mpr (Or.inl ⟨3, rfl⟩)

theorem getLastD_irrel : ∀ (l : List Int) (b d1 d2 : Int),
    (b :: l).getLastD d1 = (b :: l).getLastD d2
  | [], _, _, _ => rfl
  | _ :: _, _, _, _ => rfl

theorem getLastD_mem : ∀ (l : List Int) (b : Int), (b :: l).getLastD 0 ∈ b :: l
  | [], b => by simp [List.getLastD]
  | c :: l, b => by
    rw [List.getLastD_cons, getLastD_irrel l c b 0]
    exact List.mem_cons_of_mem b (getLastD_mem l c)

theorem sorted_le_getLastD : ∀ (l : List Int) (a : Int),
    (a :: l).Sorted (· ≤ ·) → ∀ x ∈ a :: l, x ≤ (a :: l).getLastD 0
  | [], a, _, x, hx => by
    simp at hx
    simp [List.getLastD, hx]
  | b :: l, a, hs, x, hx => by
    obtain ⟨hab, hs2⟩ := List.sorted_cons.mp hs
    rw [List.getLastD_cons, getLastD_irrel l b a 0]
    rcases List.mem_cons.mp hx with h | h
    · subst h
      exact le_trans (hab b (by simp)) (sorted_le_getLastD l b hs2 b (by simp))
    · exact sorted_le_getLastD l b hs2 x h

theorem hasAdjacentDup_sorted : ∀ (l : List Int), l.Sorted (· ≤ ·) →
    (hasAdjacentDup l = false ↔ l.Nodup)
  | [] => by simp [hasAdjacentDup]
  | [a] => by simp [hasAdjacentDup]
  | a :: b :: rest => by
    intro hs
    obtain ⟨hab, hs2⟩ := List.sorted_cons.mp hs
    have ih := hasAdjacentDup_sorted (b :: rest) hs2
    simp only [hasAdjacentDup, Bool.or_eq_false_iff, beq_eq_false_iff_ne, ne_eq, ih,
      List.nodup_cons, List.mem_cons]
    constructor
    · rintro ⟨hne, hnd⟩
      refine ⟨?_, hnd⟩
      rintro (h | h)
      · exact hne h
      · have hba : b ≤ a := (List.sorted_cons.mp hs2).1 a h
        have hab2 : a ≤ b := hab b (by simp)
        exact hne (le_antisymm hab2 hba)
    · rintro ⟨hnm, hnd⟩
      exact ⟨fun he => hnm (Or.inl he), hnd⟩

theorem sanitize_ok_sort (argnums : List Int) (argnames : List String) (s : List Int)
    (h : sanitizeArgnums argnums argnames = .ok s) :
    s = List.insertionSort (· ≤ ·) argnums := by
  unfold sanitizeArgnums at h
  split at h
  · exact absurd h (by simp)
  · cases hs : List.insertionSort (· ≤ ·) argnums with
    | nil =>
      rw [hs] at h
      simp only [checkSortedArgnums, Except.ok.injEq] at h
      exact h.symm
    | cons a rest =>
      rw [hs] at h
      simp only [checkSortedArgnums] at h
      split at h
      · exact absurd h (by simp)
      · split at h
        · exact absurd h (by simp)
        · simp only [Except.ok.injEq] at h
          exact h.symm

theorem sanitizeArgnums_ok_iff (argnums : List Int) (argnames : List String) :
    (∃ s, sanitizeArgnums argnums argnames = .ok s) ↔
      ((argnums ≠ [] ∨ argnames ≠ []) ∧ (∀ x ∈ argnums, 0 ≤ x) ∧ argnums.Nodup) := by
  unfold sanitizeArgnums
  by_cases hb : (argnums.isEmpty && argnames.isEmpty) = true
  · rw [if_pos hb]
    simp only [Bool.and_eq_true, List.isEmpty_iff] at hb
    simp [hb.1, hb.2]
  · rw [if_neg hb]
    simp only [Bool.and_eq_true, List.isEmpty_iff, not_and_or] at hb
    have hne : argnums ≠ [] ∨ argnames ≠ [] := hb
    have hp := List.perm_insertionSort (· ≤ ·) argnums
    have hsort := List.sorted_insertionSort (· ≤ ·) argnums
    cases hs : List.insertionSort (· ≤ ·) argnums with
    | nil =>
      rw [hs] at hp
      have ha0 : argnums = [] := hp.symm.eq_nil
      simp [checkSortedArgnums, ha0, hne.resolve_left (fun hc => hc ha0)]
    | cons a rest =>
      rw [hs] at hp hsort
      obtain ⟨hhead, htail⟩ := List.sorted_cons.mp hsort
      simp only [checkSortedArgnums]
      by_cases ha : a < 0
      · rw [if_pos ha]
        constructor
        · rintro ⟨s, hcontra⟩
          exact absurd hcontra (by simp)
        · rintro ⟨_, hnn, _⟩
          have : (0 : Int) ≤ a := hnn a (hp.mem_iff.mp (by simp))
          omega
      · rw [if_neg ha]
        by_cases hd : hasAdjacentDup (a :: rest) = true
        · rw [if_pos hd]
          constructor
          · rintro ⟨s, hcontra⟩
            exact absurd hcontra (by simp)
          · rintro ⟨_, _, hnd⟩
            have hnd2 : (a :: rest).Nodup := (hp.nodup_iff).mpr hnd
            have hfalse := (hasAdjacentDup_sorted (a :: rest) hsort).mpr hnd2
            rw [hfalse] at hd
            exact absurd hd (by simp)
        · rw [if_neg hd]
          constructor
          · intro _
            refine ⟨hne, ?_, ?_⟩
            · intro x hx
              have hx2 : x ∈ a :: rest := hp.mem_iff.mpr hx
              rcases List.mem_cons.mp hx2 with h | h
              · omega
              · have := hhead x h; omega
            · exact hp.nodup_iff.mp
                ((hasAdjacentDup_sorted (a :: rest) hsort).mp (by simpa using hd))
          · intro _
            exact ⟨a :: rest, rfl⟩

theorem callTimeCheck_ok_iff (argnums : List Int) (argnames : List String)
    (nargs : Nat) (kwargKeys : List String) (s : List Int)
    (h : sanitizeArgnums argnums argnames = .ok s) :
    (callTimeCheck s argnames nargs kwargKeys = .ok ()) ↔
      ((∀ x ∈ argnums, x < (nargs : Int)) ∧ (∀ k ∈ argnames, k ∈ kwargKeys)) := by
  have hsort0 := List.sorted_insertionSort (· ≤ ·) argnums
  have hp0 := List.perm_insertionSort (· ≤ ·) argnums
  have hseq := sanitize_ok_sort argnums argnames s h
  rw [← hseq] at hsort0 hp0
  unfold callTimeCheck
  cases s with
  | nil =>
    have ha0 : argnums = [] := hp0.symm.eq_nil
    subst ha0
    simp only [List.length_nil, Nat.lt_irrefl, false_and, if_false]
    constructor
    · intro hok
      refine ⟨by simp, ?_⟩
      intro k hk
      by_contra hkn
      rw [if_neg ?_] at hok
      · exact absurd hok (by simp)
      · simp only [List.all_eq_true]
        intro hall
        exact hkn (by simpa using hall k hk)
    · rintro ⟨_, hnames⟩
      rw [if_pos ?_]
      simp only [List.all_eq_true]
      intro k hk
      simpa using hnames k hk
  | cons a rest =>
    obtain ⟨hhead, htail⟩ := List.sorted_cons.mp hsort0
    constructor
    · intro hok
      split at hok
      · exact absurd hok (by simp)
      case _ hcond =>
        simp only [List.length_cons, not_and_or, not_le] at hcond
        have hlast : (a :: rest).getLastD 0 < (nargs : Int) := by
          rcases hcond with h | h
          · omega
          · exact h
        refine ⟨?_, ?_⟩
        · intro x hx
          have hx2 : x ∈ a :: rest := hp0.mem_iff.mpr hx
          have := sorted_le_getLastD rest a hsort0 x hx2
          omega
        · intro k hk
          split at hok
          case _ hall =>
            rw [List.all_eq_true] at hall
            simpa using hall k hk
          · exact absurd hok (by simp)
    · rintro ⟨hidx, hnames⟩
      have hlast : (a :: rest).getLastD 0 < (nargs : Int) :=
        hidx _ (hp0.mem_iff.mp (getLastD_mem rest a))
      rw [if_neg (by simp only [not_and_or]; right; omega), if_pos ?_]
      simp only [List.all_eq_true]
      intro k hk
      simpa using hnames k hk

/-- C6: a grad/value_and_grad wrapper raises the invalid-argument error
exactly in these cases: at wrap time when the resolved selection is
empty, when a selected positional index is negative, or when an index
appears more than once; at call time when a selected positional index is
beyond the positional arguments actually supplied, or when a selected
keyword name is absent from the supplied keyword arguments.  No other
selection is rejected. -/
theorem selection_validation (argnums : List Int) (argnames : List String)
    (nargs : Nat) (kwargKeys : List String) :
    ((∃ s, sanitizeArgnums argnums argnames = .ok s) ↔
      ((argnums ≠ [] ∨ argnames ≠ []) ∧ (∀ x ∈ argnums, 0 ≤ x) ∧ argnums.Nodup)) ∧
    (∀ s, sanitizeArgnums argnums argnames = .ok s →
      ((callTimeCheck s argnames nargs kwargKeys = .ok ()) ↔
        ((∀ x ∈ argnums, x < (nargs : Int)) ∧ (∀ k ∈ argnames, k ∈ kwargKeys)))) :=
  ⟨sanitizeArgnums_ok_iff argnums argnames,
    fun s hs => callTimeCheck_ok_iff argnums argnames nargs kwargKeys s hs⟩

/-- Witness: C6 applied to a concrete selection — argnums [1, 0] with two
supplied positional arguments passes both wrap-time and call-time
validation. -/
theorem selection_validation_witness :
    (∃ s, sanitizeArgnums [1, 0] [] = .ok s) ∧
      (callTimeCheck [0, 1] [] 2 [] = .ok ()) := by
  constructor
  · exact (selection_validation [1, 0] [] 2 []).1.mpr (by decide)
  · have hs : sanitizeArgnums [1, 0] [] = .ok [0, 1] := by rfl
    exact ((selection_validation [1, 0] [] 2 []).2 [0, 1] hs).mpr (by decide)

theorem mapMOpt_length (f : α → Option β) : ∀ (xs : List α) (ys : List β),
    mapMOpt f xs = some ys → ys.length = xs.length
  | [], ys => by
    intro h; simp [mapMOpt] at h; subst h; rfl
  | x :: xs, ys => by
    intro h
    simp only [mapMOpt] at h
    split at h
    · exact absurd h (by simp)
    case _ y heq =>
      split at h
      · exact absurd h (by simp)
      case _ ys2 heq2 =>
        simp at h; subst h
        simp [mapMOpt_length f xs ys2 heq2]

theorem mapMOpt_get (f : α → Option β) : ∀ (xs : List α) (ys : List β),
    mapMOpt f xs = some ys → ∀ (i : Nat) (y : β), ys.get? i = some y →
      ∃ x, xs.get? i = some x ∧ f x = some y
  | [], ys => by
    intro h; simp [mapMOpt] at h; subst h; intro i y hy; simp at hy
  | x :: xs, ys => by
    intro h
    simp only [mapMOpt] at h
    split at h
    · exact absurd h (by simp)
    case _ y0 heq =>
      split at h
      · exact absurd h (by simp)
      case _ ys2 heq2 =>
        simp at h; subst h
        intro i y hy
        cases i with
        | zero =>
          simp at hy
          subst hy
          exact ⟨x, by simp, heq⟩
        | succ n =>
          rw [List.get?_cons_succ] at hy
          obtain ⟨x2, hx2, hfx2⟩ := mapMOpt_get f xs ys2 heq2 n y hy
          exact ⟨x2, by simpa using hx2, hfx2⟩

theorem keywordGradsGo_spec (gradients counts : List Nat) (numsLen : Nat) :
    ∀ (kwsel : List (String × PyObj)) (i : Nat) (kvs : List (String × PyObj)),
      keywordGradsGo gradients counts numsLen kwsel i = some kvs →
      kvs.length = kwsel.length ∧
      ∀ (j : Nat) (k : String) (g : PyObj), kvs.get? j = some (k, g) →
        ∃ v, kwsel.get? j = some (k, v) ∧
          treeUnflatten v gradients (counts.getD (i + j + numsLen) 0) = some g
  | [], i, kvs => by
    intro h; simp [keywordGradsGo] at h; subst h; simp
  | (k0, v0) :: rest, i, kvs => by
    intro h
    simp only [keywordGradsGo] at h
    split at h
    · exact absurd h (by simp)
    case _ g0 heq =>
      split at h
      · exact absurd h (by simp)
      case _ kvs2 heq2 =>
        simp at h; subst h
        have ih := keywordGradsGo_spec gradients counts numsLen rest (i + 1) kvs2 heq2
        refine ⟨by simp [ih.1], ?_⟩
        intro j k g hj
        cases j with
        | zero =>
          simp at hj
          obtain ⟨hk, hg⟩ := hj
          subst hk; subst hg
          refine ⟨v0, by simp, ?_⟩
          have harith : i + 0 + numsLen = i + numsLen := by omega
          rw [harith]
          exact heq
        | succ n =>
          rw [List.get?_cons_succ] at hj
          obtain ⟨v, hv, hu⟩ := ih.2 n k g hj
          refine ⟨v, by simpa using hv, ?_⟩
          have harith : i + 1 + n + numsLen = i + (n + 1) + numsLen := by omega
          rw [← harith]
          exact hu

theorem gradCounts_head (args : List PyObj) (kwargs : List (String × PyObj))
    (argnums : List Int) (argnames : List String) :
    (gradCounts args kwargs argnums argnames).getD 0 0 = 0 := by
  unfold gradCounts
  cases gradEntries args kwargs argnums argnames <;> simp [List.scanl]

theorem positionalGradsM_spec (args : List PyObj) (argnums : List Int)
    (gradients : List Nat) (counts : List Nat) (pos : PyObj)
    (hpos : positionalGradsM args argnums gradients counts = some pos)
    (hc0 : counts.getD 0 0 = 0) :
    (∀ n, argnums = [n] →
      treeUnflatten (argAt args n) gradients 0 = some pos ∧
        eraseArr pos = eraseArr (argAt args n)) ∧
    (2 ≤ argnums.length →
      ∃ gs : List PyObj, pos = .tuple (PyObjList.ofList gs) ∧
        gs.length = argnums.length ∧
        ∀ i gi, gs.get? i = some gi →
          treeUnflatten (argAt args (argnums.getD i 0)) gradients (counts.getD i 0) =
              some gi ∧
            eraseArr gi = eraseArr (argAt args (argnums.getD i 0))) ∧
    (argnums = [] → pos = .nonec) := by
  refine ⟨?_, ?_, ?_⟩
  · intro n h1
    subst h1
    simp only [positionalGradsM, List.length_cons, List.length_nil, if_true] at hpos
    rw [hc0] at hpos
    simp only [List.getD] at hpos
    refine ⟨by simpa using hpos, ?_⟩
    exact treeUnflatten_shape _ _ _ _ (by simpa using hpos)
  · intro h2
    simp only [positionalGradsM] at hpos
    rw [if_neg (by omega), if_pos (by omega)] at hpos
    cases hmap : mapMOpt
        (fun i => treeUnflatten (argAt args (argnums.getD i 0)) gradients
          (counts.getD i 0))
        (List.range argnums.length) with
    | none => rw [hmap] at hpos; simp at hpos
    | some gs =>
      rw [hmap] at hpos
      simp only [Option.some.injEq] at hpos
      refine ⟨gs, hpos.symm, ?_, ?_⟩
      · rw [mapMOpt_length _ _ _ hmap, List.length_range]
      · intro i gi hgi
        have hlen : i < argnums.length := by
          obtain ⟨hi, _⟩ := List.get?_eq_some.mp hgi
          have hlen2 := mapMOpt_length _ _ _ hmap
          rw [List.length_range] at hlen2
          omega
        obtain ⟨x, hx, hfx⟩ := mapMOpt_get _ _ _ hmap i gi hgi
        rw [List.get?_range hlen] at hx
        simp only [Option.some.injEq] at hx
        subst hx
        exact ⟨hfx, treeUnflatten_shape _ _ _ _ hfx⟩
  · intro h0
    subst h0
    simp only [positionalGradsM, List.length_nil] at hpos
    rw [if_neg (by omega), if_neg (by omega)] at hpos
    simp only [Option.some.injEq] at hpos
    exact hpos.symm

/-- C5: gradient packaging of a successful value_and_grad/grad call.
The positional part pos is characterized in every selection
configuration, whether or not keyword names are also selected: exactly
one selected positional index makes pos that gradient tree bare (not
wrapped in a sequence, consuming gradients from offset 0, with the
structure of the selected argument); several selected indices make pos
a tuple with one gradient tree per index in sorted selection order, the
i-th unflattened at offset counts[i]; no selected index makes pos None.
The overall result is pos itself when no keyword name is selected, and
otherwise the 2-tuple of pos and a dict mapping each selected keyword
name (kwargs order) to its gradient tree, the j-th unflattened at
offset counts[j + argnums.size()] with the structure of that keyword
argument. -/
theorem value_and_grad_packaging
    (args : List PyObj) (kwargs : List (String × PyObj)) (argnums : List Int)
    (argnames : List String) (gradients : List Nat) (g : PyObj)
    (hg : packageGrads args kwargs argnums argnames gradients = some g) :
    ∃ pos : PyObj,
      (∀ n, argnums = [n] →
        treeUnflatten (argAt args n) gradients 0 = some pos ∧
          eraseArr pos = eraseArr (argAt args n)) ∧
      (2 ≤ argnums.length →
        ∃ gs : List PyObj, pos = .tuple (PyObjList.ofList gs) ∧
          gs.length = argnums.length ∧
          ∀ i gi, gs.get? i = some gi →
            treeUnflatten (argAt args (argnums.getD i 0)) gradients
                ((gradCounts args kwargs argnums argnames).getD i 0) = some gi ∧
              eraseArr gi = eraseArr (argAt args (argnums.getD i 0))) ∧
      (argnums = [] → pos = .nonec) ∧
      (argnames = [] → g = pos) ∧
      (argnames ≠ [] →
        ∃ kvs, g = .tuple (.cons pos (.cons (.dict (PyKVList.ofList kvs)) .nil)) ∧
          kvs.length = (selKwargs kwargs argnames).length ∧
          ∀ j k gk, kvs.get? j = some (k, gk) →
            ∃ v, (selKwargs kwargs argnames).get? j = some (k, v) ∧
              treeUnflatten v gradients
                  ((gradCounts args kwargs argnums argnames).getD
                    (j + argnums.length) 0) = some gk ∧
              eraseArr gk = eraseArr v) := by
  unfold packageGrads at hg
  cases hpos : positionalGradsM args argnums gradients
      (gradCounts args kwargs argnums argnames) with
  | none => rw [hpos] at hg; simp at hg
  | some pos =>
    rw [hpos] at hg
    have hspec := positionalGradsM_spec args argnums gradients
      (gradCounts args kwargs argnums argnames) pos hpos
      (gradCounts_head args kwargs argnums argnames)
    refine ⟨pos, hspec.1, hspec.2.1, hspec.2.2, ?_, ?_⟩
    · intro hnm
      subst hnm
      simp only [List.isEmpty_nil, if_true, Option.some.injEq] at hg
      exact hg.symm
    · intro hne
      cases argnames with
      | nil => exact absurd rfl hne
      | cons a0 arest =>
        simp only [List.isEmpty_cons, if_false, Bool.false_eq_true] at hg
        cases hkw : keywordGradsGo gradients
            (gradCounts args kwargs argnums (a0 :: arest)) argnums.length
            (selKwargs kwargs (a0 :: arest)) 0 with
        | none => rw [hkw] at hg; simp at hg
        | some kvs =>
          rw [hkw] at hg
          simp only [Option.some.injEq] at hg
          subst hg
          have hks := keywordGradsGo_spec gradients
            (gradCounts args kwargs argnums (a0 :: arest)) argnums.length
            (selKwargs kwargs (a0 :: arest)) 0 kvs hkw
          refine ⟨kvs, rfl, hks.1, ?_⟩
          intro j k gk hj
          obtain ⟨v, hv, hu⟩ := hks.2 j k gk hj
          refine ⟨v, hv, ?_, treeUnflatten_shape _ _ _ _ hu⟩
          have harith : 0 + j + argnums.length = j + argnums.length := by omega
          rw [harith] at hu
          exact hu

/-- Witness: C5 applied to a single selected positional index. -/
theorem value_and_grad_packaging_witness :
    treeUnflatten (argAt [PyObj.arr 1] 0) [51] 0 = some (.arr 51) ∧
      eraseArr (.arr 51) = eraseArr (argAt [PyObj.arr 1] 0) := by
  obtain ⟨pos, h1, _, _, h4, _⟩ :=
    value_and_grad_packaging [PyObj.arr 1] [] [0] [] [51] (.arr 51) rfl
  have hgp : PyObj.arr 51 = pos := h4 rfl
  have hp := h1 0 rfl
  rw [← hgp] at hp
  exact hp

/-- C10: when only keyword names are selected (argnames non-empty, no
positional indices), the gradient result is still a 2-tuple whose first
element is None — the python None constant, not an empty sequence — and
whose second element is the dict mapping each selected keyword name
(kwargs iteration order) to its gradient tree, the j-th unflattened at
offset counts[j] with the structure of that keyword argument. -/
theorem keyword_only_grads
    (args : List PyObj) (kwargs : List (String × PyObj)) (argnames : List String)
    (gradients : List Nat) (g : PyObj) (hn : argnames ≠ [])
    (hg : packageGrads args kwargs [] argnames gradients = some g) :
    ∃ kvs, g = .tuple (.cons .nonec (.cons (.dict (PyKVList.ofList kvs)) .nil)) ∧
      kvs.length = (selKwargs kwargs argnames).length ∧
      ∀ j k gk, kvs.get? j = some (k, gk) →
        ∃ v, (selKwargs kwargs argnames).get? j = some (k, v) ∧
          treeUnflatten v gradients
              ((gradCounts args kwargs [] argnames).getD j 0) = some gk ∧
          eraseArr gk = eraseArr v := by
  unfold packageGrads at hg
  simp only [positionalGradsM, List.length_nil] at hg
  rw [if_neg (by omega), if_neg (by omega)] at hg
  cases argnames with
  | nil => exact absurd rfl hn
  | cons a0 arest =>
    simp only [List.isEmpty_cons, if_false, Bool.false_eq_true] at hg
    cases hkw : keywordGradsGo gradients (gradCounts args kwargs [] (a0 :: arest))
        0 (selKwargs kwargs (a0 :: arest)) 0 with
    | none => rw [hkw] at hg; simp at hg
    | some kvs =>
      rw [hkw] at hg
      simp only [Option.some.injEq] at hg
      subst hg
      have hks := keywordGradsGo_spec gradients
        (gradCounts args kwargs [] (a0 :: arest)) 0
        (selKwargs kwargs (a0 :: arest)) 0 kvs hkw
      refine ⟨kvs, rfl, hks.1, ?_⟩
      intro j k gk hj
      obtain ⟨v, hv, hu⟩ := hks.2 j k gk hj
      refine ⟨v, hv, ?_, treeUnflatten_shape _ _ _ _ hu⟩
      have harith : 0 + j + 0 = j := by omega
      rw [harith] at hu
      exact hu

/-- Witness: C10 applied to a concrete keyword-only selection. -/
theorem keyword_only_grads_witness :
    ∃ kvs, PyObj.tuple (.cons .nonec (.cons (.dict (.cons "w" (.arr 51) .nil)) .nil)) =
        .tuple (.cons .nonec (.cons (.dict (PyKVList.ofList kvs)) .nil)) ∧
      kvs.length = 1 := by
  obtain ⟨kvs, hk, hlen, _⟩ := keyword_only_grads [] [("w", PyObj.arr 3)] ["w"] [51]
    (.tuple (.cons .nonec (.cons (.dict (.cons "w" (.arr 51) .nil)) .nil)))
    (by simp) rfl
  exact ⟨kvs, hk, by simpa [selKwargs] using hlen⟩


end MLXTransforms
